import Mathlib

/-!
# Verification of the skin-disease detector's decision pipeline

Shallow embedding of the decision logic of the repository
(`src/utils/model_utils.py`, `src/utils/image_utils.py`,
`src/services/gemini_service.py`, `src/config/settings.py`).

Python floats are modelled as rationals (`ℚ`), Python lists as `List`,
Python dicts as association lists with insert-or-overwrite semantics,
and fallible external calls (the model, the Gemini service, the file
system) as explicit parameters of `Option` type.
-/

namespace SkinApp

/-! ## Severity classifier (`src/utils/model_utils.py`, `compute_severity`)

Default thresholds from `src/config/settings.py` (the values used when no
secret overrides them). -/

/-- `THRESHOLD_MILD = 0.45` (default in `settings.py`). -/
def THRESHOLD_MILD : ℚ := 45 / 100

/-- `THRESHOLD_SEVERE = 0.80` (default in `settings.py`). -/
def THRESHOLD_SEVERE : ℚ := 80 / 100

/-- Default `HIGH_RISK_DISEASES` is the empty list (`settings.py`). -/
def HIGH_RISK_DISEASES : List String := []

/-- Embedding of `compute_severity(confidence, disease_name, high_risk_diseases)`.
The Python default argument `high_risk_diseases=None` resolves to
`HIGH_RISK_DISEASES`; here the list is always passed explicitly. -/
def compute_severity (confidence : ℚ) (disease_name : String)
    (high_risk_diseases : List String) : String :=
  if disease_name ∈ high_risk_diseases then "severe"
  else if confidence < THRESHOLD_MILD then "mild"
  else if confidence < THRESHOLD_SEVERE then "moderate"
  else "severe"

/-! ## Upload validation (`src/utils/image_utils.py`, `validate_uploaded_file`) -/

/-- `MAX_FILE_SIZE = 10 * 1024 * 1024` (`settings.py`). -/
def MAX_FILE_SIZE : ℕ := 10 * 1024 * 1024

/-- `SUPPORTED_FORMATS = ['jpg', 'jpeg', 'png']` (`settings.py`). -/
def SUPPORTED_FORMATS : List String := ["jpg", "jpeg", "png"]

/-- An uploaded file as seen by `validate_uploaded_file`: a declared name
and a declared byte length.  A missing upload is `none` at the call site. -/
structure UploadedFile where
  name : String
  size : ℕ
deriving DecidableEq

/-- The distinct messages `validate_uploaded_file` can return.  The Python
code returns literal strings (the oversize and unsupported messages
interpolate the size and the allowed formats); only the identity of the
branch matters here. -/
inductive ValidationMsg where
  /-- "No file uploaded" -/
  | noFile : ValidationMsg
  /-- "File size (...MB) exceeds limit (...MB)" -/
  | tooLarge : ValidationMsg
  /-- "Unsupported format. Please use: jpg, jpeg, png" -/
  | unsupportedFormat : ValidationMsg
  /-- "Valid file" -/
  | validFile : ValidationMsg
deriving DecidableEq

/-- Python `s.split(sep)` for a one-character separator, on the
character list of the string: always returns a non-empty list of
(possibly empty) chunks. -/
def splitOnChar (sep : Char) : List Char → List (List Char)
  | [] => [[]]
  | c :: rest =>
    let r := splitOnChar sep rest
    if c = sep then [] :: r
    else
      match r with
      | [] => [[c]]
      | h :: t => (c :: h) :: t

/-- Python `name.split('.')[-1].lower()`: the chunk after the last dot
(the whole name when there is no dot), lower-cased. -/
def fileExtension (name : String) : String :=
  String.mk (((splitOnChar '.' name.toList).getLastD []).map Char.toLower)

/-- Embedding of `validate_uploaded_file(uploaded_file)`.  Checks run in
the source order: missing file, then size, then extension. -/
def validate_uploaded_file : Option UploadedFile → Bool × ValidationMsg
  | none => (false, ValidationMsg.noFile)
  | some f =>
    if f.size > MAX_FILE_SIZE then (false, ValidationMsg.tooLarge)
    else if fileExtension f.name ∉ SUPPORTED_FORMATS then
      (false, ValidationMsg.unsupportedFormat)
    else (true, ValidationMsg.validFile)

/-! ## Class registry (`src/utils/model_utils.py`, `load_class_names`) -/

/-- JSON values as `json.load` produces them.  Objects keep insertion
order, as Python dicts do; a dict produced by `json.load` has pairwise
distinct keys. -/
inductive Json where
  | str (s : String) : Json
  | num (n : ℤ) : Json
  | bool (b : Bool) : Json
  | null : Json
  | list (l : List Json) : Json
  | obj (kvs : List (String × Json)) : Json

/-- Python dict lookup on the association list (first match; for the
distinct keys `json.load` yields this is exactly dict access). -/
def jsonLookup (k : String) : List (String × Json) → Option Json
  | [] => none
  | (k', v) :: rest => if k' = k then some v else jsonLookup k rest

/-- Python `str(i)` on a non-negative integer: decimal digit string. -/
def digitChar (d : ℕ) : Char := Char.ofNat (48 + d)

/-- Decimal digit characters of `n`, most significant first; fuelled so
the recursion is structural (`fuel = n + 1` always suffices since the
argument at least halves each step). -/
def natStrAux : ℕ → ℕ → List Char
  | 0, _ => []
  | fuel + 1, n =>
    if n < 10 then [digitChar n]
    else natStrAux fuel (n / 10) ++ [digitChar (n % 10)]

/-- Python `str(i)` for a natural number. -/
def natStr (n : ℕ) : String := String.mk (natStrAux (n + 1) n)

/-- Inverse of `digitChar` on decimal digits (used only in proofs). -/
def charDigit (c : Char) : ℕ := c.toNat - 48

/-- Decimal digits of `n`, most significant first (`[0]` for zero);
the abstract counterpart of `natStrAux`, used only in proofs. -/
def decDigits (n : ℕ) : List ℕ :=
  if n = 0 then [0] else (Nat.digits 10 n).reverse

/-- `data["classes"]` when `"classes" in data and
isinstance(data["classes"], list)`, else `none`. -/
def classesListOf (kvs : List (String × Json)) : Option (List Json) :=
  match jsonLookup "classes" kvs with
  | some (Json.list l) => some l
  | _ => none

/-- Embedding of `load_class_names()`.  The argument is the parsed
content of `models/classes.json`, or `none` when the file is missing.
Branches in source order:
* dict with a `"classes"` key holding a list → that list;
* dict: `[data[str(i)] for i in range(len(data))]` when every key
  `str(0) .. str(n-1)` is present, else `list(data.values())`
  (a `KeyError` in the comprehension is caught);
* top-level list → itself;
* anything else (or missing file) → `[]`. -/
def load_class_names : Option Json → List Json
  | some (Json.obj kvs) =>
    match classesListOf kvs with
    | some l => l
    | none =>
      if (List.range kvs.length).all (fun i => (jsonLookup (natStr i) kvs).isSome)
      then (List.range kvs.length).map
        (fun i => (jsonLookup (natStr i) kvs).getD Json.null)
      else kvs.map Prod.snd
  | some (Json.list l) => l
  | some _ => []
  | none => []

/-! ## Prediction decoder (`src/utils/model_utils.py`, `predict_image`)

`predict_image` first calls the external model (`model.predict`), takes
the first output when several are returned, and flattens it; everything
from line 100 on is pure and is embedded below, taking the flattened raw
score vector `preds` as input. -/

/-- Lines 100–104 of `model_utils.py`: the normalization step.
`s = sum(preds)`; if `s <= 0` substitute the uniform distribution
`1/len(preds)` for every entry, else divide each entry by `s`. -/
def normalizeScores (preds : List ℚ) : List ℚ :=
  if preds.sum ≤ 0 then preds.map (fun _ => 1 / (preds.length : ℚ))
  else preds.map (fun p => p / preds.sum)

/-- `np.argmax`: index of the first occurrence of the maximum.
Auxiliary scan: `i` is the index of the head of the remaining list,
`bi`/`bv` the best index and value so far; the best is replaced only on
a strictly greater value. -/
def argmaxAux : List ℚ → ℕ → ℕ → ℚ → ℕ
  | [], _, bi, _ => bi
  | x :: xs, i, bi, bv =>
    if bv < x then argmaxAux xs (i + 1) i x else argmaxAux xs (i + 1) bi bv

/-- `np.argmax` on a list (0 on the empty list, where NumPy raises). -/
def argmax : List ℚ → ℕ
  | [] => 0
  | x :: xs => argmaxAux xs 1 0 x

/-- The label for index `i`:
`class_names[i] if (class_names and i < len(class_names)) else str(i)`. -/
def labelOf (class_names : List String) (i : ℕ) : String :=
  match class_names.get? i with
  | some s => s
  | none => natStr i

/-- Python dict assignment `m[k] = v` on an association list: overwrite
the value in place when the key is present, else append. -/
def dictInsert (m : List (String × ℚ)) (k : String) (v : ℚ) :
    List (String × ℚ) :=
  match m with
  | [] => [(k, v)]
  | (k', v') :: rest =>
    if k' = k then (k, v) :: rest else (k', v') :: dictInsert rest k v

/-- Python dict lookup `m[k]` on the association list built by
`dictInsert` (first match). -/
def dictLookup (k : String) : List (String × ℚ) → Option ℚ
  | [] => none
  | (k', v) :: rest => if k' = k then some v else dictLookup k rest

/-- The loop of lines 113–116 of `model_utils.py`: iterate
`enumerate(probs)` starting at index `i` with current dict `m` and
assign `probs_map[name] = p` at each step. -/
def buildProbsMapAux (class_names : List String) :
    ℕ → List (String × ℚ) → List ℚ → List (String × ℚ)
  | _, m, [] => m
  | i, m, p :: rest =>
    buildProbsMapAux class_names (i + 1)
      (dictInsert m (labelOf class_names i) p) rest

/-- Lines 113–116 of `model_utils.py`: `probs_map` built by iterating
`enumerate(probs)` and assigning `probs_map[name] = p`. -/
def buildProbsMap (class_names : List String) (probs : List ℚ) :
    List (String × ℚ) :=
  buildProbsMapAux class_names 0 [] probs

/-- The dictionary `predict_image` returns. -/
structure PredictionResult where
  class_id : ℕ
  disease : String
  confidence : ℚ
  probabilities : List (String × ℚ)
deriving DecidableEq

/-- Embedding of lines 100–123 of `predict_image`: normalize the raw
scores, pick the arg-max class (`top_idx`), read its probability
(`top_conf = probs[top_idx]`), look up its label, and build the
label → probability mapping. -/
def predict_decode (preds : List ℚ) (class_names : List String) :
    PredictionResult :=
  { class_id := argmax (normalizeScores preds)
    disease := labelOf class_names (argmax (normalizeScores preds))
    confidence := (normalizeScores preds).getD (argmax (normalizeScores preds)) 0
    probabilities := buildProbsMap class_names (normalizeScores preds) }

/-- The list of `(label, probability)` pairs produced by enumerating
`probs` from index `i` — what the `probs_map` loop inserts, in order. -/
def pairsFrom (cn : List String) : ℕ → List ℚ → List (String × ℚ)
  | _, [] => []
  | i, p :: rest => (labelOf cn i, p) :: pairsFrom cn (i + 1) rest

/-! ## Advice resolver (`src/services/gemini_service.py`)

`get_preventive_measures_from_gemini` calls the external Gemini model
and parses `response.text`.  The external interaction is modelled as an
`Option String`: `none` when there is no API key or the call raises
(including a timeout), `some text` when a response text comes back.
Python's string operations are re-implemented structurally below so that
the embedding evaluates inside the kernel. -/

/-- `p` is a prefix of `l` (Python `line.startswith(p)` on char lists). -/
def startsWithChars : List Char → List Char → Bool
  | [], _ => true
  | _ :: _, [] => false
  | p :: ps, c :: cs => p = c && startsWithChars ps cs

/-- Python `pat in l` (substring containment on char lists). -/
def containsSeq (pat : List Char) : List Char → Bool
  | [] => startsWithChars pat []
  | c :: rest => startsWithChars pat (c :: rest) || containsSeq pat rest

/-- Python `s.strip()`: drop whitespace from both ends. -/
def trimChars (l : List Char) : List Char :=
  ((l.dropWhile Char.isWhitespace).reverse.dropWhile Char.isWhitespace).reverse

/-- Python `s.replace(pat, repl)` (all non-overlapping occurrences, left
to right), fuelled so the recursion is structural; `fuel = length of the
list` suffices for the non-empty patterns the source uses. -/
def replaceFuel (pat repl : List Char) : ℕ → List Char → List Char
  | _, [] => []
  | 0, l => l
  | fuel + 1, c :: rest =>
    if startsWithChars pat (c :: rest) then
      repl ++ replaceFuel pat repl fuel (rest.drop (pat.length - 1))
    else c :: replaceFuel pat repl fuel rest

/-- Python `s.replace(pat, repl)` on char lists. -/
def replaceSeq (pat repl l : List Char) : List Char :=
  replaceFuel pat repl l.length l

/-- Line 34 of `gemini_service.py`:
`[line.strip() for line in text.split('\n') if line.strip()]`. -/
def stripLines (text : String) : List String :=
  ((splitOnChar '\n' text.toList).map (fun l => String.mk (trimChars l))).filter
    (fun s => s ≠ "")

/-- `line.startswith(('1.', '2.', '3.'))`. -/
def isNumberedLine (line : String) : Bool :=
  startsWithChars "1.".toList line.toList ||
  startsWithChars "2.".toList line.toList ||
  startsWithChars "3.".toList line.toList

/-- `'doctor' in line.lower()`. -/
def mentionsDoctor (line : String) : Bool :=
  containsSeq "doctor".toList (line.toList.map Char.toLower)

/-- One iteration of the parsing loop (lines 38–42): a numbered line
appends `line[2:].strip()` to the bullets, otherwise a line mentioning
"doctor" overwrites the consult line with
`line.replace('When to see a doctor:', '').strip()`. -/
def parseLine (st : List String × String) (line : String) :
    List String × String :=
  if isNumberedLine line then
    (st.1 ++ [String.mk (trimChars (line.toList.drop 2))], st.2)
  else if mentionsDoctor line then
    (st.1, String.mk (trimChars
      (replaceSeq "When to see a doctor:".toList [] line.toList)))
  else st

/-- The whole parsing loop: `(bullets, consult_line)` after scanning the
stripped non-empty lines of the response text. -/
def parseGemini (text : String) : List String × String :=
  (stripLines text).foldl parseLine ([], "")

/-- The dictionary shape both advice functions return. -/
structure AdviceResult where
  via : String
  bullets : List String
  consult : String
  advice_text : String
deriving DecidableEq

/-- Embedding of `get_fallback_measures()`: the fixed fallback payload. -/
def get_fallback_measures : AdviceResult :=
  { via := "fallback"
    bullets :=
      ["Keep the area clean and dry; wash gently with mild soap.",
       "Avoid scratching or picking at the area to reduce infection risk.",
       "Use gentle, fragrance-free moisturizers and avoid known irritants."]
    consult := "Consult a healthcare professional if symptoms worsen or persist."
    advice_text := "Keep the area clean and dry. Avoid scratching. Use gentle moisturizers." }

/-- Embedding of `get_preventive_measures_from_gemini(...)`.
`response` is `none` when there is no API key or the external call
raises/times out, else the response text.  On a response whose parse
yields at least one bullet, returns the generated payload (tagged
`"gemini"` in the source); otherwise falls back. -/
def get_preventive_measures (response : Option String) : AdviceResult :=
  match response with
  | some text =>
    if (parseGemini text).1 ≠ [] then
      { via := "gemini"
        bullets := (parseGemini text).1
        consult := (parseGemini text).2
        advice_text := String.intercalate " " (parseGemini text).1 ++ " " ++
          (parseGemini text).2 }
    else get_fallback_measures
  | none => get_fallback_measures

/-- Number of stripped non-empty lines of `text` that begin with `1.`,
`2.` or `3.` — exactly the lines the parsing loop turns into bullets. -/
def numberedCount (text : String) : ℕ :=
  ((stripLines text).filter (fun l => isNumberedLine l)).length

/-! ## Helper lemmas -/

/-- Splitting on a character absent from the list yields the whole list
as the single chunk. -/
lemma splitOnChar_of_not_mem {sep : Char} :
    ∀ {l : List Char}, (∀ c ∈ l, c ≠ sep) → splitOnChar sep l = [l]
  | [], _ => rfl
  | c :: rest, h => by
    have hc : c ≠ sep := h c (List.mem_cons_self c rest)
    have hrest : splitOnChar sep rest = [rest] :=
      splitOnChar_of_not_mem (fun x hx => h x (List.mem_cons_of_mem c hx))
    simp only [splitOnChar, hrest, if_neg hc]

/-- On a dot-free name the extension check sees the whole lower-cased
name. -/
lemma fileExtension_of_dotless {name : String}
    (h : ∀ c ∈ name.toList, c ≠ '.') :
    fileExtension name = String.mk (name.toList.map Char.toLower) := by
  unfold fileExtension
  rw [splitOnChar_of_not_mem h]
  rfl

/-- Invariant of the `np.argmax` scan: the result is either the incoming
best index `bi` (when no remaining element strictly beats `bv`), or
`i + k` for the first remaining index `k` whose value beats `bv` and is a
maximum of the remainder, every element before it being strictly
smaller. -/
lemma argmaxAux_spec : ∀ (xs : List ℚ) (i bi : ℕ) (bv : ℚ),
    (argmaxAux xs i bi bv = bi ∧ ∀ j, j < xs.length → xs.getD j 0 ≤ bv) ∨
    (∃ k, k < xs.length ∧ argmaxAux xs i bi bv = i + k ∧ bv < xs.getD k 0 ∧
      (∀ j, j < xs.length → xs.getD j 0 ≤ xs.getD k 0) ∧
      (∀ j, j < k → xs.getD j 0 < xs.getD k 0))
  | [], i, bi, bv => Or.inl ⟨rfl, fun j hj => absurd hj (Nat.not_lt_zero j)⟩
  | x :: xs, i, bi, bv => by
    by_cases hx : bv < x
    · have hstep : argmaxAux (x :: xs) i bi bv = argmaxAux xs (i + 1) i x := by
        rw [argmaxAux, if_pos hx]
      rcases argmaxAux_spec xs (i + 1) i x with ⟨heq, hle⟩ |
        ⟨k, hk, heq, hgt, hmax, hstrict⟩
      · refine Or.inr ⟨0, Nat.succ_pos _, ?_, by simpa using hx, ?_, ?_⟩
        · rw [hstep, heq]; omega
        · intro j hj
          cases j with
          | zero => simp
          | succ j => simpa using hle j (by simpa using hj)
        · intro j hj; exact absurd hj (Nat.not_lt_zero j)
      · refine Or.inr ⟨k + 1, by simpa using hk, ?_, ?_, ?_, ?_⟩
        · rw [hstep, heq]; omega
        · simpa using lt_trans hx hgt
        · intro j hj
          cases j with
          | zero => simpa using le_of_lt hgt
          | succ j => simpa using hmax j (by simpa using hj)
        · intro j hj
          cases j with
          | zero => simpa using hgt
          | succ j => simpa using hstrict j (by omega)
    · have hstep : argmaxAux (x :: xs) i bi bv = argmaxAux xs (i + 1) bi bv := by
        rw [argmaxAux, if_neg hx]
      rcases argmaxAux_spec xs (i + 1) bi bv with ⟨heq, hle⟩ |
        ⟨k, hk, heq, hgt, hmax, hstrict⟩
      · refine Or.inl ⟨by rw [hstep, heq], ?_⟩
        intro j hj
        cases j with
        | zero => simpa using le_of_not_lt hx
        | succ j => simpa using hle j (by simpa using hj)
      · refine Or.inr ⟨k + 1, by simpa using hk, ?_, ?_, ?_, ?_⟩
        · rw [hstep, heq]; omega
        · simpa using hgt
        · intro j hj
          cases j with
          | zero => simpa using le_trans (le_of_not_lt hx) (le_of_lt hgt)
          | succ j => simpa using hmax j (by simpa using hj)
        · intro j hj
          cases j with
          | zero => simpa using lt_of_le_of_lt (le_of_not_lt hx) hgt
          | succ j => simpa using hstrict j (by omega)

/-- `argmax` of a non-empty list is a maximising index and every earlier
index holds a strictly smaller value (first occurrence wins ties). -/
lemma argmax_spec (l : List ℚ) (hl : l ≠ []) :
    argmax l < l.length ∧
    (∀ j, j < l.length → l.getD j 0 ≤ l.getD (argmax l) 0) ∧
    (∀ j, j < argmax l → l.getD j 0 < l.getD (argmax l) 0) := by
  cases l with
  | nil => exact absurd rfl hl
  | cons x xs =>
    have hax : argmax (x :: xs) = argmaxAux xs 1 0 x := rfl
    rcases argmaxAux_spec xs 1 0 x with ⟨heq, hle⟩ |
      ⟨k, hk, heq, hgt, hmax, hstrict⟩
    · rw [hax, heq]
      refine ⟨Nat.succ_pos _, ?_, ?_⟩
      · intro j hj
        cases j with
        | zero => simp
        | succ j => simpa using hle j (by simpa using hj)
      · intro j hj; exact absurd hj (Nat.not_lt_zero j)
    · rw [hax, heq]
      have hidx : (x :: xs).getD (1 + k) 0 = xs.getD k 0 := by
        rw [Nat.add_comm 1 k, List.getD_cons_succ]
      refine ⟨by simp only [List.length_cons]; omega, ?_, ?_⟩
      · intro j hj
        rw [hidx]
        cases j with
        | zero => simpa using le_of_lt hgt
        | succ j => simpa using hmax j (by simpa using hj)
      · intro j hj
        rw [hidx]
        cases j with
        | zero => simpa using hgt
        | succ j => simpa using hstrict j (by omega)

lemma pairsFrom_keys (cn : List String) :
    ∀ (probs : List ℚ) (i : ℕ),
      (pairsFrom cn i probs).map Prod.fst =
        (List.range' i probs.length).map (labelOf cn)
  | [], i => by simp [pairsFrom]
  | p :: rest, i => by
    simp [pairsFrom, List.range'_succ, pairsFrom_keys cn rest (i + 1)]

lemma pairsFrom_values (cn : List String) :
    ∀ (probs : List ℚ) (i : ℕ), (pairsFrom cn i probs).map Prod.snd = probs
  | [], _ => rfl
  | p :: rest, i => by simp [pairsFrom, pairsFrom_values cn rest (i + 1)]

/-- Inserting a fresh key appends. -/
lemma dictInsert_of_not_mem : ∀ (m : List (String × ℚ)) (k : String) (v : ℚ),
    k ∉ m.map Prod.fst → dictInsert m k v = m ++ [(k, v)]
  | [], _, _, _ => rfl
  | (k', v') :: rest, k, v, h => by
    simp only [List.map_cons, List.mem_cons, not_or] at h
    simp only [dictInsert, if_neg (fun hkk : k' = k => h.1 hkk.symm)]
    rw [dictInsert_of_not_mem rest k v h.2]
    simp

/-- With globally distinct keys the insertion loop just appends the pair
list. -/
lemma buildProbsMapAux_eq (cn : List String) :
    ∀ (probs : List ℚ) (i : ℕ) (m : List (String × ℚ)),
      (m.map Prod.fst ++ (pairsFrom cn i probs).map Prod.fst).Nodup →
      buildProbsMapAux cn i m probs = m ++ pairsFrom cn i probs
  | [], i, m, _ => by simp [buildProbsMapAux, pairsFrom]
  | p :: rest, i, m, h => by
    have h' : (m.map Prod.fst ++
        (labelOf cn i :: (pairsFrom cn (i + 1) rest).map Prod.fst)).Nodup := by
      simpa [pairsFrom] using h
    have hsplit := List.nodup_append.mp h'
    have hk : labelOf cn i ∉ m.map Prod.fst := fun hmem =>
      hsplit.2.2 hmem (List.mem_cons_self _ _)
    have h'' : ((m ++ [(labelOf cn i, p)]).map Prod.fst ++
        (pairsFrom cn (i + 1) rest).map Prod.fst).Nodup := by
      simpa [List.append_assoc] using h'
    rw [buildProbsMapAux, dictInsert_of_not_mem m _ p hk,
      buildProbsMapAux_eq cn rest (i + 1) _ h'']
    simp [pairsFrom]

lemma buildProbsMap_eq (cn : List String) (probs : List ℚ)
    (h : ((List.range probs.length).map (labelOf cn)).Nodup) :
    buildProbsMap cn probs = pairsFrom cn 0 probs := by
  have h0 : (([] : List (String × ℚ)).map Prod.fst ++
      (pairsFrom cn 0 probs).map Prod.fst).Nodup := by
    simpa [pairsFrom_keys, ← List.range_eq_range'] using h
  simpa [buildProbsMap] using buildProbsMapAux_eq cn probs 0 [] h0

/-- Looking up the label of position `i + j` in the enumerated pair list
(distinct keys) returns the `j`-th probability. -/
lemma dictLookup_pairsFrom (cn : List String) :
    ∀ (probs : List ℚ) (i j : ℕ), j < probs.length →
      ((List.range' i probs.length).map (labelOf cn)).Nodup →
      dictLookup (labelOf cn (i + j)) (pairsFrom cn i probs) =
        some (probs.getD j 0)
  | [], _, j, hj, _ => absurd hj (by simp)
  | p :: rest, i, j, hj, hnd => by
    cases j with
    | zero => simp [pairsFrom, dictLookup]
    | succ j =>
      have hlen : j < rest.length := by simpa using Nat.lt_of_succ_lt_succ hj
      simp only [List.length_cons, List.range'_succ, List.map_cons,
        List.nodup_cons] at hnd
      have hne : labelOf cn i ≠ labelOf cn (i + (j + 1)) := by
        intro hEq
        apply hnd.1
        rw [hEq]
        exact List.mem_map_of_mem _ (List.mem_range'_1.mpr ⟨by omega, by omega⟩)
      have ih := dictLookup_pairsFrom cn rest (i + 1) j hlen hnd.2
      simp only [pairsFrom, dictLookup, if_neg hne]
      rw [show i + (j + 1) = (i + 1) + j by omega, ih, List.getD_cons_succ]

lemma sum_map_div (l : List ℚ) (s : ℚ) :
    (l.map (fun p => p / s)).sum = l.sum / s := by
  induction l with
  | nil => simp
  | cons x xs ih => simp [ih, add_div]

lemma normalizeScores_length (preds : List ℚ) :
    (normalizeScores preds).length = preds.length := by
  unfold normalizeScores
  split_ifs <;> simp

lemma normalizeScores_pos (preds : List ℚ) (h : 0 < preds.sum) :
    normalizeScores preds = preds.map (fun p => p / preds.sum) := by
  unfold normalizeScores
  rw [if_neg (not_le.mpr h)]

/-- Membership in the key set after one Python dict assignment. -/
lemma mem_keys_dictInsert (m : List (String × ℚ)) (k : String) (v : ℚ)
    (a : String) :
    a ∈ (dictInsert m k v).map Prod.fst ↔ a ∈ m.map Prod.fst ∨ a = k := by
  induction m with
  | nil => simp [dictInsert]
  | cons kv rest ih =>
    obtain ⟨k', v'⟩ := kv
    by_cases hk : k' = k
    · subst hk
      simp [dictInsert]
      tauto
    · simp only [dictInsert, if_neg hk, List.map_cons, List.mem_cons, ih]
      tauto

/-- Membership in the key set of the `probs_map` loop: the keys are
exactly the starting keys plus the labels of the enumerated indices. -/
lemma mem_keys_buildProbsMapAux (cn : List String) :
    ∀ (probs : List ℚ) (i : ℕ) (m : List (String × ℚ)) (a : String),
      a ∈ (buildProbsMapAux cn i m probs).map Prod.fst ↔
        a ∈ m.map Prod.fst ∨ ∃ j, j < probs.length ∧ a = labelOf cn (i + j)
  | [], i, m, a => by simp [buildProbsMapAux]
  | p :: rest, i, m, a => by
    rw [buildProbsMapAux, mem_keys_buildProbsMapAux cn rest (i + 1) _ a,
      mem_keys_dictInsert]
    constructor
    · rintro ((h | h) | ⟨j, hj, rfl⟩)
      · exact Or.inl h
      · exact Or.inr ⟨0, by simp, by simp [h]⟩
      · exact Or.inr ⟨j + 1, by simpa using hj,
          by rw [show i + (j + 1) = (i + 1) + j by omega]⟩
    · rintro (h | ⟨j, hj, rfl⟩)
      · exact Or.inl (Or.inl h)
      · cases j with
        | zero => exact Or.inl (Or.inr (by simp))
        | succ j =>
          exact Or.inr ⟨j, by simpa using hj,
            by rw [show i + (j + 1) = (i + 1) + j by omega]⟩

/-! ## Claim theorems -/

/-- C1.  `compute_severity(c, d, H)` returns `"severe"` whenever `d ∈ H`
regardless of `c`; otherwise `"mild"` for `c < 0.45` (the default
`THRESHOLD_MILD`), `"moderate"` for `0.45 ≤ c < 0.80` (the default
`THRESHOLD_SEVERE`), and `"severe"` for `c ≥ 0.80`; a confidence exactly
equal to a threshold falls into the higher tier (both comparisons are
strict). -/
theorem compute_severity_tiering_C1 (c : ℚ) (d : String) (H : List String) :
    (d ∈ H → compute_severity c d H = "severe") ∧
    (d ∉ H → c < 45 / 100 → compute_severity c d H = "mild") ∧
    (d ∉ H → 45 / 100 ≤ c → c < 80 / 100 →
      compute_severity c d H = "moderate") ∧
    (d ∉ H → 80 / 100 ≤ c → compute_severity c d H = "severe") := by
  unfold compute_severity THRESHOLD_MILD THRESHOLD_SEVERE
  refine ⟨fun hd => ?_, fun hd h1 => ?_, fun hd h1 h2 => ?_, fun hd h1 => ?_⟩ <;>
    split_ifs <;> first | rfl | linarith

/-- Witness for C1 at the spec's concrete inputs, including the exact
threshold `c = 0.80` falling into the higher tier. -/
theorem compute_severity_tiering_C1_witness :
    compute_severity (80 / 100) "X" [] = "severe" ∧
    compute_severity (79999 / 100000) "X" [] = "moderate" ∧
    compute_severity (44999 / 100000) "X" [] = "mild" ∧
    compute_severity 0 "X" ["X"] = "severe" :=
  ⟨(compute_severity_tiering_C1 (80 / 100) "X" []).2.2.2 (by simp) (by norm_num),
   (compute_severity_tiering_C1 (79999 / 100000) "X" []).2.2.1 (by simp)
     (by norm_num) (by norm_num),
   (compute_severity_tiering_C1 (44999 / 100000) "X" []).2.1 (by simp)
     (by norm_num),
   (compute_severity_tiering_C1 0 "X" ["X"]).1 (by simp)⟩

/-- C6.  `validate_uploaded_file` rejects a missing file with the
no-file reason; rejects a file whose byte length strictly exceeds
`MAX_FILE_SIZE` (10 MiB) with the too-large reason; accepts a file of
exactly the maximum size with an allowed extension; and (for a file that
passes the size check, since the checks run in that order) rejects with
the unsupported-format reason any file whose lower-cased extension after
the last `'.'` is not in `{jpg, jpeg, png}`. -/
theorem validate_uploaded_file_checks_C6 :
    validate_uploaded_file none = (false, ValidationMsg.noFile) ∧
    (∀ f : UploadedFile, MAX_FILE_SIZE < f.size →
      validate_uploaded_file (some f) = (false, ValidationMsg.tooLarge)) ∧
    (∀ f : UploadedFile, f.size = MAX_FILE_SIZE →
      fileExtension f.name ∈ SUPPORTED_FORMATS →
      validate_uploaded_file (some f) = (true, ValidationMsg.validFile)) ∧
    (∀ f : UploadedFile, f.size ≤ MAX_FILE_SIZE →
      fileExtension f.name ∉ SUPPORTED_FORMATS →
      validate_uploaded_file (some f) = (false, ValidationMsg.unsupportedFormat)) := by
  refine ⟨rfl, fun f h => ?_, fun f h hext => ?_, fun f h hext => ?_⟩ <;>
    simp only [validate_uploaded_file]
  · rw [if_pos h]
  · rw [if_neg (by omega), if_neg (by simp [hext])]
  · rw [if_neg (by omega), if_pos hext]

/-- Witness for C6: `photo.GIF` of 1 byte is rejected as unsupported, a
`photo.jpg` of exactly 10 MiB is accepted, and one byte over is
rejected as too large. -/
theorem validate_uploaded_file_checks_C6_witness :
    validate_uploaded_file (some ⟨"photo.GIF", 1⟩) =
      (false, ValidationMsg.unsupportedFormat) ∧
    validate_uploaded_file (some ⟨"photo.jpg", 10 * 1024 * 1024⟩) =
      (true, ValidationMsg.validFile) ∧
    validate_uploaded_file (some ⟨"photo.jpg", 10 * 1024 * 1024 + 1⟩) =
      (false, ValidationMsg.tooLarge) :=
  ⟨validate_uploaded_file_checks_C6.2.2.2 ⟨"photo.GIF", 1⟩ (by decide) (by decide),
   validate_uploaded_file_checks_C6.2.2.1 ⟨"photo.jpg", 10 * 1024 * 1024⟩ rfl
     (by decide),
   validate_uploaded_file_checks_C6.2.1 ⟨"photo.jpg", 10 * 1024 * 1024 + 1⟩
     (by decide)⟩

/-- C10.  For an uploaded file whose declared name contains no `'.'`,
the format check applies to the entire lower-cased name: a
within-size-limit file named (case-insensitively) `jpg`, `jpeg` or `png`
is accepted, and any other dot-less name is rejected as unsupported. -/
theorem validate_dotless_name_C10 (f : UploadedFile)
    (hdot : ∀ c ∈ f.name.toList, c ≠ '.') (hsize : f.size ≤ MAX_FILE_SIZE) :
    (String.mk (f.name.toList.map Char.toLower) ∈ SUPPORTED_FORMATS →
      validate_uploaded_file (some f) = (true, ValidationMsg.validFile)) ∧
    (String.mk (f.name.toList.map Char.toLower) ∉ SUPPORTED_FORMATS →
      validate_uploaded_file (some f) = (false, ValidationMsg.unsupportedFormat)) := by
  have hext : fileExtension f.name = String.mk (f.name.toList.map Char.toLower) :=
    fileExtension_of_dotless hdot
  constructor <;> intro hmem <;> simp only [validate_uploaded_file] <;>
    rw [if_neg (by omega)]
  · rw [if_neg (by rw [hext]; exact not_not_intro hmem)]
  · rw [if_pos (by rw [hext]; exact hmem)]

/-- Witness for C10: a 5-byte file named `JPG` is accepted; a 5-byte
file named `readme` is rejected as unsupported. -/
theorem validate_dotless_name_C10_witness :
    validate_uploaded_file (some ⟨"JPG", 5⟩) = (true, ValidationMsg.validFile) ∧
    validate_uploaded_file (some ⟨"readme", 5⟩) =
      (false, ValidationMsg.unsupportedFormat) :=
  ⟨(validate_dotless_name_C10 ⟨"JPG", 5⟩ (by decide) (by decide)).1 (by decide),
   (validate_dotless_name_C10 ⟨"readme", 5⟩ (by decide) (by decide)).2 (by decide)⟩

/-- C2.  For a raw score vector of length ≥ 1 whose sum is ≤ 0, the
normalization step of `predict_image` substitutes the uniform
distribution: every entry equals `1/N`. -/
theorem normalize_uniform_fallback_C2 (preds : List ℚ)
    (_hN : 1 ≤ preds.length) (hsum : preds.sum ≤ 0) :
    ∀ i, i < preds.length →
      (normalizeScores preds).getD i 0 = 1 / (preds.length : ℚ) := by
  intro i hi
  unfold normalizeScores
  rw [if_pos hsum, List.getD_eq_getElem _ _ (by simpa using hi)]
  simp

/-- Witness for C2 on the all-zero score vector `[0, 0]`. -/
theorem normalize_uniform_fallback_C2_witness :
    (normalizeScores [0, 0]).getD 0 0 = 1 / (([0, 0] : List ℚ).length : ℚ) ∧
    (normalizeScores [0, 0]).getD 1 0 = 1 / (([0, 0] : List ℚ).length : ℚ) :=
  ⟨normalize_uniform_fallback_C2 [0, 0] (by norm_num) (by norm_num) 0 (by norm_num),
   normalize_uniform_fallback_C2 [0, 0] (by norm_num) (by norm_num) 1 (by norm_num)⟩

/-- Counterexample to C3 as stated: with the duplicate-label registry
`["a", "a"]` and raw scores `[3, 1]` the Python dict collapses both
labels to one key, so the probabilities mapping sums to `1/4` (not 1
within `1e-6`) and `probabilities[disease] = 1/4 ≠ 3/4 = confidence`. -/
theorem predict_probabilities_C3_counterexample :
    ¬ (|((predict_decode [3, 1] ["a", "a"]).probabilities.map Prod.snd).sum - 1| ≤
        1 / 1000000 ∧
       dictLookup (predict_decode [3, 1] ["a", "a"]).disease
         (predict_decode [3, 1] ["a", "a"]).probabilities =
         some (predict_decode [3, 1] ["a", "a"]).confidence) := by
  have hcalc : predict_decode [3, 1] ["a", "a"] =
      { class_id := 0, disease := "a", confidence := 3 / 4,
        probabilities := [("a", 1 / 4)] } := by
    norm_num [predict_decode, normalizeScores, argmax, argmaxAux, labelOf,
      buildProbsMap, buildProbsMapAux, dictInsert]
  rw [hcalc]
  intro h
  have h1 := h.1
  rw [abs_le] at h1
  norm_num at h1

/-- C3 amended: for raw scores with positive sum and a registry whose
per-index labels are pairwise distinct, the probabilities of the
returned `PredictionResult` sum to exactly 1 and the entry of the
mapping at the returned disease label equals the confidence field. -/
theorem predict_probabilities_C3_amended (preds : List ℚ) (cn : List String)
    (hsum : 0 < preds.sum)
    (hinj : ((List.range preds.length).map (labelOf cn)).Nodup) :
    ((predict_decode preds cn).probabilities.map Prod.snd).sum = 1 ∧
    dictLookup (predict_decode preds cn).disease
      (predict_decode preds cn).probabilities =
      some (predict_decode preds cn).confidence := by
  have hne : preds ≠ [] := by
    intro h0
    rw [h0] at hsum
    simp at hsum
  have hs : preds.sum ≠ 0 := ne_of_gt hsum
  have hlen : (normalizeScores preds).length = preds.length :=
    normalizeScores_length preds
  have hnd : ((List.range (normalizeScores preds).length).map (labelOf cn)).Nodup := by
    rwa [hlen]
  have hmap : buildProbsMap cn (normalizeScores preds) =
      pairsFrom cn 0 (normalizeScores preds) :=
    buildProbsMap_eq cn _ hnd
  constructor
  · show ((buildProbsMap cn (normalizeScores preds)).map Prod.snd).sum = 1
    rw [hmap, pairsFrom_values, normalizeScores_pos preds hsum, sum_map_div,
      div_self hs]
  · show dictLookup (labelOf cn (argmax (normalizeScores preds)))
        (buildProbsMap cn (normalizeScores preds)) =
        some ((normalizeScores preds).getD (argmax (normalizeScores preds)) 0)
    have hlen0 : (normalizeScores preds).length ≠ 0 := by
      rw [hlen]
      exact fun h0 => hne (List.length_eq_zero.mp h0)
    have hne' : normalizeScores preds ≠ [] := fun h0 => hlen0 (by simp [h0])
    have htop : argmax (normalizeScores preds) < (normalizeScores preds).length :=
      (argmax_spec _ hne').1
    have hnd' : ((List.range' 0 (normalizeScores preds).length).map (labelOf cn)).Nodup := by
      rwa [← List.range_eq_range']
    have := dictLookup_pairsFrom cn (normalizeScores preds) 0
      (argmax (normalizeScores preds)) htop hnd'
    rw [hmap]
    simpa using this

/-- Witness for the amended C3 at the spec's round-trip example:
registry `["a","b","c"]`, raw scores `[1,2,1]`. -/
theorem predict_probabilities_C3_amended_witness :
    ((predict_decode [1, 2, 1] ["a", "b", "c"]).probabilities.map Prod.snd).sum = 1 ∧
    dictLookup (predict_decode [1, 2, 1] ["a", "b", "c"]).disease
      (predict_decode [1, 2, 1] ["a", "b", "c"]).probabilities =
      some (predict_decode [1, 2, 1] ["a", "b", "c"]).confidence :=
  predict_probabilities_C3_amended [1, 2, 1] ["a", "b", "c"] (by norm_num)
    (by decide)

/-- C4.  The decoder's `class_id` is the arg-max index of the normalized
vector with ties broken by the lowest index; the disease label is the
registry entry at that index when the registry has one and the decimal
string form of the index otherwise; and the same per-index lookup rule
generates exactly the keys of the probabilities mapping. -/
theorem predict_argmax_label_C4 (preds : List ℚ) (cn : List String)
    (hne : preds ≠ []) :
    ((predict_decode preds cn).class_id < preds.length ∧
      (∀ j, j < preds.length →
        (normalizeScores preds).getD j 0 ≤
          (normalizeScores preds).getD ((predict_decode preds cn).class_id) 0) ∧
      (∀ j, j < (predict_decode preds cn).class_id →
        (normalizeScores preds).getD j 0 <
          (normalizeScores preds).getD ((predict_decode preds cn).class_id) 0)) ∧
    ((predict_decode preds cn).class_id < cn.length →
      cn.get? ((predict_decode preds cn).class_id) =
        some ((predict_decode preds cn).disease)) ∧
    (cn.length ≤ (predict_decode preds cn).class_id →
      (predict_decode preds cn).disease = natStr ((predict_decode preds cn).class_id)) ∧
    (∀ i, i < preds.length →
      labelOf cn i ∈ ((predict_decode preds cn).probabilities.map Prod.fst)) ∧
    (∀ k, k ∈ ((predict_decode preds cn).probabilities.map Prod.fst) →
      ∃ i, i < preds.length ∧ k = labelOf cn i) := by
  have hlen : (normalizeScores preds).length = preds.length :=
    normalizeScores_length preds
  have hlen0 : (normalizeScores preds).length ≠ 0 := by
    rw [hlen]
    exact fun h0 => hne (List.length_eq_zero.mp h0)
  have hne' : normalizeScores preds ≠ [] := fun h0 => hlen0 (by simp [h0])
  obtain ⟨htop, hmax, hstrict⟩ := argmax_spec (normalizeScores preds) hne'
  have hid : (predict_decode preds cn).class_id = argmax (normalizeScores preds) := rfl
  refine ⟨⟨?_, ?_, ?_⟩, ?_, ?_, ?_, ?_⟩
  · rw [hid, ← hlen]; exact htop
  · intro j hj; rw [hid]; exact hmax j (by rwa [hlen])
  · intro j hj; exact hstrict j (by rwa [hid] at hj)
  · intro hlt
    have hlt' : argmax (normalizeScores preds) < cn.length := hlt
    show cn.get? (argmax (normalizeScores preds)) =
      some (labelOf cn (argmax (normalizeScores preds)))
    cases hget : cn.get? (argmax (normalizeScores preds)) with
    | none =>
      rw [List.get?_eq_none] at hget
      omega
    | some s => simp only [labelOf, hget]
  · intro hge
    have hge' : cn.length ≤ argmax (normalizeScores preds) := hge
    show labelOf cn (argmax (normalizeScores preds)) =
      natStr (argmax (normalizeScores preds))
    cases hget : cn.get? (argmax (normalizeScores preds)) with
    | none => simp only [labelOf, hget]
    | some s =>
      obtain ⟨hb, -⟩ := List.get?_eq_some.mp hget
      omega
  · intro i hi
    show labelOf cn i ∈ ((buildProbsMapAux cn 0 [] (normalizeScores preds)).map Prod.fst)
    rw [mem_keys_buildProbsMapAux]
    exact Or.inr ⟨i, by rwa [hlen], by simp⟩
  · intro k hk
    have := (mem_keys_buildProbsMapAux cn (normalizeScores preds) 0 [] k).mp hk
    rcases this with h | ⟨j, hj, rfl⟩
    · simp at h
    · exact ⟨j, by rwa [hlen] at hj, by simp⟩

/-- Witness for C4 at registry `["a","b","c"]`, raw scores `[1,2,1]`. -/
theorem predict_argmax_label_C4_witness :
    (predict_decode [1, 2, 1] ["a", "b", "c"]).class_id <
      ([1, 2, 1] : List ℚ).length ∧
    (normalizeScores [1, 2, 1]).getD 0 0 ≤
      (normalizeScores [1, 2, 1]).getD
        ((predict_decode [1, 2, 1] ["a", "b", "c"]).class_id) 0 ∧
    labelOf ["a", "b", "c"] 0 ∈
      ((predict_decode [1, 2, 1] ["a", "b", "c"]).probabilities.map Prod.fst) := by
  obtain ⟨⟨h1, h2, _⟩, _, _, h4, _⟩ :=
    predict_argmax_label_C4 [1, 2, 1] ["a", "b", "c"] (by simp)
  exact ⟨h1, h2 0 (by norm_num), h4 0 (by norm_num)⟩

/-- Each pass of the parsing loop adds one bullet per numbered line and
leaves the bullets unchanged otherwise. -/
lemma foldl_parseLine_bullets :
    ∀ (lines : List String) (st : List String × String),
      ((lines.foldl parseLine st).1).length =
        st.1.length + (lines.filter (fun l => isNumberedLine l)).length
  | [], st => by simp
  | l :: rest, st => by
    rw [List.foldl_cons, foldl_parseLine_bullets rest (parseLine st l)]
    by_cases hn : isNumberedLine l = true
    · have hb : (parseLine st l).1 =
          st.1 ++ [String.mk (trimChars (l.toList.drop 2))] := by
        unfold parseLine
        rw [if_pos hn]
      rw [hb, List.filter_cons_of_pos (by simpa using hn)]
      simp only [List.length_append, List.length_cons, List.length_nil]
      omega
    · have hb : (parseLine st l).1 = st.1 := by
        unfold parseLine
        rw [if_neg hn]
        split_ifs <;> rfl
      rw [hb]
      simp only [List.filter_cons, hn]
      rw [if_neg (by simp [hn])]

/-- The number of bullets the parser produces is exactly the number of
numbered lines in the response. -/
lemma parseGemini_bullets_count (text : String) :
    (parseGemini text).1.length = numberedCount text := by
  unfold parseGemini numberedCount
  rw [foldl_parseLine_bullets]
  simp

/-- C7.  The advice resolver never propagates an error: when the
external call fails (no key, exception, timeout — modelled as a `none`
response) or the parse yields zero bullets, it returns the fixed
fallback payload, which carries `via = "fallback"`, exactly 3 bullets
and one non-empty consult line.  (`get_preventive_measures` is a total
function, so no input makes it raise.) -/
theorem advice_fallback_C7 (response : Option String) :
    (response = none → get_preventive_measures response = get_fallback_measures) ∧
    (∀ text, response = some text → (parseGemini text).1 = [] →
      get_preventive_measures response = get_fallback_measures) ∧
    (get_fallback_measures.via = "fallback" ∧
      get_fallback_measures.bullets.length = 3 ∧
      get_fallback_measures.consult ≠ "") := by
  refine ⟨?_, ?_, rfl, rfl, by decide⟩
  · rintro rfl
    rfl
  · rintro text rfl hb
    simp only [get_preventive_measures]
    rw [if_neg (not_not_intro hb)]

/-- Witness for C7: a response with no numbered lines falls back. -/
theorem advice_fallback_C7_witness :
    get_preventive_measures (some "hello") = get_fallback_measures :=
  (advice_fallback_C7 (some "hello")).2.1 "hello" rfl (by decide)

/-- Counterexample to C8 as stated: the fallback payload's
`advice_text` is a fixed shortened string, not its bullets joined by
spaces followed by its consult line. -/
theorem advice_text_concat_C8_counterexample :
    (get_preventive_measures none).advice_text ≠
      String.intercalate " " (get_preventive_measures none).bullets ++ " " ++
        (get_preventive_measures none).consult := by
  decide

/-- C8 amended: for every generated (non-fallback) result of the advice
resolver, `advice_text` equals the bullets joined by spaces followed by
the consult line; the fallback payload instead carries a fixed
abbreviated `advice_text`. -/
theorem advice_text_concat_C8_amended (response : Option String)
    (hvia : (get_preventive_measures response).via = "gemini") :
    (get_preventive_measures response).advice_text =
      String.intercalate " " (get_preventive_measures response).bullets ++
        " " ++ (get_preventive_measures response).consult := by
  cases response with
  | none => exact absurd hvia (by decide)
  | some text =>
    by_cases hb : (parseGemini text).1 = []
    · rw [show get_preventive_measures (some text) = get_fallback_measures from by
        simp only [get_preventive_measures]; rw [if_neg (not_not_intro hb)]] at hvia
      exact absurd hvia (by decide)
    · simp only [get_preventive_measures]
      rw [if_pos hb]

/-- Witness for the amended C8 on a generated result. -/
theorem advice_text_concat_C8_amended_witness :
    (get_preventive_measures (some "1. Rest")).advice_text =
      String.intercalate " " (get_preventive_measures (some "1. Rest")).bullets ++
        " " ++ (get_preventive_measures (some "1. Rest")).consult :=
  advice_text_concat_C8_amended (some "1. Rest") (by decide)

/-- Counterexample to C9 as stated: a response repeating the `1.` prefix
on four lines yields four bullets, exceeding the claimed bound of 3. -/
theorem advice_bullets_C9_counterexample :
    ¬ ((get_preventive_measures (some "1. a\n1. b\n1. c\n1. d")).bullets.length ≤ 3) := by
  decide

/-- C9 amended: every resolver output has `via` in the two-member
enumeration (`"gemini"`, the generated tag, or `"fallback"`), and its
bullets number at most 3 whenever at most 3 of the response's stripped
non-empty lines begin with `1.`, `2.` or `3.` (the parser produces one
bullet per such line, so a response repeating a prefix can exceed 3). -/
theorem advice_bullets_C9_amended (response : Option String) :
    ((get_preventive_measures response).via = "gemini" ∨
      (get_preventive_measures response).via = "fallback") ∧
    (∀ text, response = some text → numberedCount text ≤ 3 →
      (get_preventive_measures response).bullets.length ≤ 3) := by
  constructor
  · cases response with
    | none => exact Or.inr rfl
    | some text =>
      by_cases hb : (parseGemini text).1 = []
      · right
        simp only [get_preventive_measures]
        rw [if_neg (not_not_intro hb)]
        rfl
      · left
        simp only [get_preventive_measures]
        rw [if_pos hb]
  · rintro text rfl hcount
    by_cases hb : (parseGemini text).1 = []
    · simp only [get_preventive_measures]
      rw [if_neg (not_not_intro hb)]
      decide
    · simp only [get_preventive_measures]
      rw [if_pos hb]
      show (parseGemini text).1.length ≤ 3
      rw [parseGemini_bullets_count]
      exact hcount

/-- Witness for the amended C9 on a well-formed single-bullet response. -/
theorem advice_bullets_C9_amended_witness :
    (get_preventive_measures (some "1. a")).bullets.length ≤ 3 :=
  (advice_bullets_C9_amended (some "1. a")).2 "1. a" rfl (by decide)

lemma charDigit_digitChar {d : ℕ} (h : d < 10) :
    charDigit (digitChar d) = d := by
  interval_cases d <;> decide

lemma map_charDigit_digitChar {ds : List ℕ} (h : ∀ d ∈ ds, d < 10) :
    (ds.map digitChar).map charDigit = ds := by
  induction ds with
  | nil => rfl
  | cons d rest ih =>
    rw [List.map_cons, List.map_cons, charDigit_digitChar (h d (by simp)),
      ih (fun x hx => h x (List.mem_cons_of_mem _ hx))]

/-- With enough fuel the decimal printer agrees with `Nat.digits`. -/
lemma natStrAux_eq_digits : ∀ (fuel n : ℕ), 0 < n → n ≤ fuel →
    natStrAux fuel n = ((Nat.digits 10 n).reverse.map digitChar)
  | 0, n, hn, hf => by omega
  | fuel + 1, n, hn, _hf => by
    by_cases h10 : n < 10
    · rw [natStrAux, if_pos h10,
        Nat.digits_def' (by norm_num : (1 : ℕ) < 10) hn,
        Nat.div_eq_of_lt h10]
      simp [Nat.mod_eq_of_lt h10]
    · have hpos : 0 < n / 10 := Nat.div_pos (by omega) (by norm_num)
      have hle : n / 10 ≤ fuel := by
        have := Nat.div_lt_self hn (by norm_num : 1 < 10)
        omega
      rw [natStrAux, if_neg h10, natStrAux_eq_digits fuel (n / 10) hpos hle,
        Nat.digits_def' (by norm_num : (1 : ℕ) < 10) hn]
      simp

lemma natStrAux_succ_self (n : ℕ) :
    natStrAux (n + 1) n = (decDigits n).map digitChar := by
  by_cases h0 : n = 0
  · subst h0
    rfl
  · rw [decDigits, if_neg h0]
    exact natStrAux_eq_digits (n + 1) n (Nat.pos_of_ne_zero h0) (by omega)

lemma decDigits_lt (n : ℕ) : ∀ d ∈ decDigits n, d < 10 := by
  intro d hd
  rw [decDigits] at hd
  split_ifs at hd with h0
  · simp at hd
    omega
  · exact Nat.digits_lt_base (by norm_num) (List.mem_reverse.mp hd)

lemma decDigits_inj : Function.Injective decDigits := by
  have key : ∀ m : ℕ, m ≠ 0 → Nat.digits 10 m = [0] → False := by
    intro m hm hdig
    have := Nat.ofDigits_digits 10 m
    rw [hdig] at this
    simp [Nat.ofDigits] at this
    exact hm this.symm
  intro a b h
  rw [decDigits, decDigits] at h
  by_cases ha : a = 0 <;> by_cases hb : b = 0
  · omega
  · rw [if_pos ha, if_neg hb] at h
    have hdig : Nat.digits 10 b = [0] := by
      have := congrArg List.reverse h
      simpa using this.symm
    exact absurd (key b hb hdig) (by simp)
  · rw [if_neg ha, if_pos hb] at h
    have hdig : Nat.digits 10 a = [0] := by
      have := congrArg List.reverse h
      simpa using this
    exact absurd (key a ha hdig) (by simp)
  · rw [if_neg ha, if_neg hb] at h
    have hdig : Nat.digits 10 a = Nat.digits 10 b := by
      have := congrArg List.reverse h
      simpa using this
    have := congrArg (Nat.ofDigits 10) hdig
    rwa [Nat.ofDigits_digits, Nat.ofDigits_digits] at this

/-- Python's decimal `str(i)` is injective on the naturals. -/
lemma natStr_inj : Function.Injective natStr := by
  intro a b h
  unfold natStr at h
  injection h with h
  rw [natStrAux_succ_self, natStrAux_succ_self] at h
  have ha := map_charDigit_digitChar (decDigits_lt a)
  have hb := map_charDigit_digitChar (decDigits_lt b)
  have hab : decDigits a = decDigits b := by
    rw [← ha, ← hb, h]
  exact decDigits_inj hab

lemma jsonLookup_isSome_iff (k : String) :
    ∀ kvs : List (String × Json),
      (jsonLookup k kvs).isSome ↔ k ∈ kvs.map Prod.fst
  | [] => by simp [jsonLookup]
  | (k', v) :: rest => by
    by_cases hk : k' = k
    · subst hk
      simp [jsonLookup]
    · have hk' : ¬ k = k' := fun hE => hk hE.symm
      simp [jsonLookup, hk, hk', jsonLookup_isSome_iff k rest]

/-- The comprehension guard of `load_class_names` — every key
`str(0) .. str(n-1)` present — holds exactly when the keys are a
permutation of the clean decimal range `0 .. n-1`. -/
lemma rangeKeys_all_iff (kvs : List (String × Json)) :
    ((List.range kvs.length).all
      (fun i => (jsonLookup (natStr i) kvs).isSome) = true) ↔
      (kvs.map Prod.fst).Perm ((List.range kvs.length).map natStr) := by
  rw [List.all_eq_true]
  constructor
  · intro h
    have hsub : (List.range kvs.length).map natStr ⊆ kvs.map Prod.fst := by
      intro a ha
      obtain ⟨i, hi, rfl⟩ := List.mem_map.mp ha
      exact (jsonLookup_isSome_iff _ kvs).mp (by simpa using h i hi)
    have hnd : ((List.range kvs.length).map natStr).Nodup :=
      (List.nodup_range _).map natStr_inj
    exact ((hnd.subperm hsub).perm_of_length_le (by simp)).symm
  · intro hperm i hi
    have hmem : natStr i ∈ kvs.map Prod.fst :=
      hperm.mem_iff.mpr (List.mem_map_of_mem _ hi)
    simpa using (jsonLookup_isSome_iff (natStr i) kvs).mpr hmem

/-- C5.  `load_class_names` returns: the list itself for a top-level
list; the list under the `"classes"` key for an object holding one;
for any other object the values reordered by ascending numeric key when
the keys form the clean decimal range `0 .. N-1` (equivalently, a
permutation of it), else the values in insertion order; and the empty
sequence for a missing file. -/
theorem load_class_names_shapes_C5 :
    load_class_names none = [] ∧
    (∀ l, load_class_names (some (Json.list l)) = l) ∧
    (∀ kvs l, jsonLookup "classes" kvs = some (Json.list l) →
      load_class_names (some (Json.obj kvs)) = l) ∧
    (∀ kvs, (∀ l, jsonLookup "classes" kvs ≠ some (Json.list l)) →
      (kvs.map Prod.fst).Perm ((List.range kvs.length).map natStr) →
      load_class_names (some (Json.obj kvs)) =
        (List.range kvs.length).map
          (fun i => (jsonLookup (natStr i) kvs).getD Json.null)) ∧
    (∀ kvs, (∀ l, jsonLookup "classes" kvs ≠ some (Json.list l)) →
      ¬ (kvs.map Prod.fst).Perm ((List.range kvs.length).map natStr) →
      load_class_names (some (Json.obj kvs)) = kvs.map Prod.snd) := by
  have hclnone : ∀ kvs, (∀ l, jsonLookup "classes" kvs ≠ some (Json.list l)) →
      classesListOf kvs = none := by
    intro kvs h
    unfold classesListOf
    cases hres : jsonLookup "classes" kvs with
    | none => rfl
    | some v =>
      cases v with
      | list l => exact absurd hres (h l)
      | str s => rfl
      | num n => rfl
      | bool b => rfl
      | null => rfl
      | obj o => rfl
  refine ⟨rfl, fun l => rfl, ?_, ?_, ?_⟩
  · intro kvs l h
    simp only [load_class_names]
    rw [show classesListOf kvs = some l from by unfold classesListOf; rw [h]]
  · intro kvs hcl hperm
    simp only [load_class_names]
    rw [hclnone kvs hcl]
    show (if (List.range kvs.length).all
        (fun i => (jsonLookup (natStr i) kvs).isSome) = true
      then (List.range kvs.length).map
        (fun i => (jsonLookup (natStr i) kvs).getD Json.null)
      else kvs.map Prod.snd) = _
    rw [if_pos ((rangeKeys_all_iff kvs).mpr hperm)]
  · intro kvs hcl hperm
    simp only [load_class_names]
    rw [hclnone kvs hcl]
    show (if (List.range kvs.length).all
        (fun i => (jsonLookup (natStr i) kvs).isSome) = true
      then (List.range kvs.length).map
        (fun i => (jsonLookup (natStr i) kvs).getD Json.null)
      else kvs.map Prod.snd) = _
    rw [if_neg (fun hall => hperm ((rangeKeys_all_iff kvs).mp hall))]

/-- Witness for C5 on an object carrying a `"classes"` list. -/
theorem load_class_names_shapes_C5_witness :
    load_class_names
        (some (Json.obj [("classes", Json.list [Json.str "psoriasis"])])) =
      [Json.str "psoriasis"] :=
  load_class_names_shapes_C5.2.2.1
    [("classes", Json.list [Json.str "psoriasis"])] [Json.str "psoriasis"] rfl

end SkinApp
